import Mathlib

/-!
Shallow embedding of `src/bin/ci-deploy.py` (the artifact resolution engine
of the deploy script) and proofs about its behaviour.

Modelling conventions:
* A git tree is an association list from tracked path to blob hexsha;
  `tree[path]` raising `KeyError` becomes an `Option` returning `none`.
* Python generators become eagerly computed `List`s (finite because commit
  ancestry representations are finite).
* The pickle store (a Python `dict`, insertion-ordered) becomes an
  association list with insert-in-place-or-append semantics.
* Network responses are an input: a list of page results the paginated
  endpoint would serve in order.
* Printing is modelled only where a claim mentions it (run dispositions,
  the expired-artifact warning); other prints are dropped.
-/

set_option maxHeartbeats 1000000

namespace CiDeploy

/-- A git tree: finite mapping from path to blob hexsha. -/
structure Tree where
  entries : List (String × String)
deriving DecidableEq

/-- `tree[path]` in gitpython; `none` models the `KeyError` for a missing path. -/
def Tree.lookup (t : Tree) (path : String) : Option String :=
  (t.entries.find? (fun e => e.1 == path)).map (fun e => e.2)

/-- The fixed tracked path set `ASSET_FILES` of the script. -/
def ASSET_FILES : List String :=
  [".github/workflows/assets.yml", "public", "ui", "package.json", "yarn.lock"]

/-- `hash_files(tree, files)`: the tuple of blob ids, one per tracked path in
order; `none` models the `KeyError` escaping when some path is absent. -/
def hash_files (tree : Tree) (files : List String) : Option (List String) :=
  files.mapM tree.lookup

/-- A commit: hexsha, tree, parent commits.  The ancestry DAG is embedded as
a tree of commits; a commit reachable along several paths appears once per
path, matching the generator's repeated yield semantics. -/
inductive Commit where
  | mk : String → Tree → List Commit → Commit

def Commit.hexsha : Commit → String
  | .mk s _ _ => s

def Commit.tree : Commit → Tree
  | .mk _ t _ => t

def Commit.parents : Commit → List Commit
  | .mk _ _ ps => ps

/-- `find_commits(commit, files, wanted_hash)`: depth-first walk that yields a
commit's hexsha and recurses into its parents when its content identity equals
`wanted`, and yields nothing (pruning the parents) when the identity differs
or a tracked path is missing. -/
def find_commits (commit : Commit) (files : List String) (wanted : List String) :
    List String :=
  match commit with
  | .mk sha tree parents =>
    match hash_files tree files with
    | none => []
    | some h =>
      if h = wanted then
        sha :: (parents.attach.map (fun p => find_commits p.1 files wanted)).flatten
      else []
termination_by sizeOf commit
decreasing_by
  simp only [Commit.mk.sizeOf_spec]
  have := List.sizeOf_lt_of_mem p.2
  omega

/-- The fields of a workflow run that the script reads. -/
structure WorkflowRun where
  id : Nat
  status : String
  conclusion : String
  head_commit_id : String
  html_url : String
deriving DecidableEq

/-- The pickled `data` dict: run id → run, in Python dict insertion order. -/
abbrev Store := List (Nat × WorkflowRun)

/-- `run_id in data` / `data[run_id]` read access. -/
def Store.lookup (s : Store) (k : Nat) : Option WorkflowRun :=
  (s.find? (fun e => e.1 == k)).map (fun e => e.2)

/-- `data[run_id] = run`: update in place when the key exists (keeping its
position, as a Python dict does), otherwise append at the end. -/
def Store.insert (s : Store) (k : Nat) (v : WorkflowRun) : Store :=
  if (s.find? (fun e => e.1 == k)).isSome then
    s.map (fun e => if e.1 == k then (k, v) else e)
  else
    s ++ [(k, v)]

/-- One response of the paginated runs endpoint, in fetch order:
a non-200 response, a raised exception while reading the response body, or a
200 page carrying its runs and whether a `next` link is present. -/
inductive PageResult where
  | httpError : PageResult
  | exn : PageResult
  | ok : List WorkflowRun → Bool → PageResult

/-- Error that can escape `workflow_runs`: the pickle load raising on content
that is not a valid pickle, or an exception while processing a page. -/
inductive SyncError where
  | loadFailed : SyncError
  | pageExn : SyncError
deriving DecidableEq

/-- The `run["id"] in data and data[run["id"]]["status"] == "completed"`
test of the page loop, against the store state at the moment the run is
processed. -/
def hitOf (data : Store) (r : WorkflowRun) : Bool :=
  match Store.lookup data r.id with
  | some v => v.status == "completed"
  | none => false

/-- The inner `for run in res.json()["workflow_runs"]` loop of one page:
merges every run into the store (unconditional `data[run["id"]] = run`) and
returns whether some fetched run's id was already present with stored status
`completed` at the moment it was processed (the `synced` flag). -/
def mergeRuns : List WorkflowRun → Store → Store × Bool
  | [], data => (data, false)
  | r :: rs, data =>
    let rest := mergeRuns rs (Store.insert data r.id r)
    (rest.1, hitOf data r || rest.2)

/-- The `while not synced` pagination loop: fetch a page (counted), break on a
non-200 response, propagate a processing exception, merge a 200 page, then
stop when `synced` was set or no `next` link exists.  Returns the store at
exit, the escaping error if any, and how many pages were fetched. -/
def syncPages : List PageResult → Store → Store × Option SyncError × Nat
  | [], data => (data, none, 0)
  | .httpError :: _, data => (data, none, 1)
  | .exn :: _, data => (data, some .pageExn, 1)
  | .ok runs hasNext :: rest, data =>
    let m := mergeRuns runs data
    if m.2 then (m.1, none, 1)
    else if hasNext then
      let s := syncPages rest m.1
      (s.1, s.2.1, s.2.2 + 1)
    else (m.1, none, 1)

/-- Content of the persisted `workflow_runs.pickle` file: newly created or
empty (pickle.load raises `EOFError`, caught), a valid pickled store, or
content that is not a valid pickle (pickle.load raises, uncaught). -/
inductive FileContent where
  | empty : FileContent
  | store : Store → FileContent
  | corrupt : FileContent

/-- The load at the top of `workflow_runs`: `pickle.load` with only
`EOFError` handled (yielding the empty dict). -/
def loadStore : FileContent → Except SyncError Store
  | .empty => .ok []
  | .store s => .ok s
  | .corrupt => .error .loadFailed

/-- `workflow_runs(session, repo)`: load the store, run the pagination loop,
and — through the `try`/`finally` — truncate and rewrite the whole store to
the file on every exit of the loop, error or not.  Returns the result (ok
store, or the propagating error), the file content after the call, and the
number of page fetches performed. -/
def workflow_runs (file : FileContent) (pages : List PageResult) :
    Except SyncError Store × FileContent × Nat :=
  match loadStore file with
  | .error e => (.error e, file, 0)
  | .ok data =>
    let s := syncPages pages data
    match s.2.1 with
    | some e => (.error e, .store s.1, s.2.2)
    | none => (.ok s.1, .store s.1, s.2.2)

/-- What `find_workflow_run` prints for a qualifying run. -/
inductive Disposition where
  | pending : Disposition
  | failed : Disposition
  | succeeded : Disposition
deriving DecidableEq

/-- The disposition printed for a qualifying run. -/
def disposition (r : WorkflowRun) : Disposition :=
  if r.status ≠ "completed" then .pending
  else if r.conclusion ≠ "success" then .failed
  else .succeeded

/-- `find_workflow_run(runs, wanted_commits)`: iterate the store in order,
skip runs whose head commit is not wanted, report each qualifying run's
disposition, and keep the first completed+successful one.  `none` models the
`RuntimeError` when no successful matching run exists.  Returns the selected
run and the report lines (html_url, disposition) in print order. -/
def find_workflow_run : Store → List String → Option WorkflowRun × List (String × Disposition)
  | [], _ => (none, [])
  | e :: rest, wanted =>
    let t := find_workflow_run rest wanted
    if e.2.head_commit_id ∈ wanted then
      (if disposition e.2 = .succeeded then some e.2 else t.1,
       (e.2.html_url, disposition e.2) :: t.2)
    else t

/-- The fields of an artifact that the script reads. -/
structure Artifact where
  name : String
  expired : Bool
  archive_download_url : String
deriving DecidableEq

/-- `artifact_url(session, run, name)` over the run's artifact listing: return
the first artifact with exactly the wanted name (printing "Artifact expired."
when it is flagged expired — the returned Bool), `none` for the
`RuntimeError` when no name matches. -/
def artifact_url : List Artifact → String → Option String × Bool
  | [], _ => (none, false)
  | a :: rest, name =>
    if a.name == name then (some a.archive_download_url, a.expired)
    else artifact_url rest name

/-- Observable steps of `main` that the temporal claims order. -/
inductive Event where
  | fetchRuns : Event
  | hashHead : Event
  | fetchArtifacts : Event
  | deploy : Event
deriving DecidableEq

/-- Everything `main` consumes from its environment: the credential, the
pickle file, the pages the runs endpoint serves, the head commit, the
artifact listing of whichever run gets selected, and the remote session's
exit code. -/
structure MainInput where
  token : Option String
  file : FileContent
  pages : List PageResult
  head : Commit
  artifacts : List Artifact
  remoteExit : Int

/-- `main()`: token check (128 when missing), cache sync, head identity
(1 when a tracked path is missing), ancestry walk, run selection, artifact
lookup, deploy.  First component: `some code` for a `return code`, `none`
for an uncaught exception.  Second component: the trace of observable
events, in order. -/
def mainRun (inp : MainInput) : Option Int × List Event :=
  match inp.token with
  | none => (some 128, [])
  | some _ =>
    match loadStore inp.file with
    | .error _ => (none, [])
    | .ok data =>
      let s := syncPages inp.pages data
      let fetched := List.replicate s.2.2 Event.fetchRuns
      match s.2.1 with
      | some _ => (none, fetched)
      | none =>
        match hash_files inp.head.tree ASSET_FILES with
        | none => (some 1, fetched ++ [Event.hashHead])
        | some wanted =>
          let wantedCommits := (find_commits inp.head ASSET_FILES wanted).dedup
          match (find_workflow_run s.1 wantedCommits).1 with
          | none => (none, fetched ++ [Event.hashHead])
          | some _ =>
            match (artifact_url inp.artifacts ("lila-assets")).1 with
            | none => (none, fetched ++ [Event.hashHead, Event.fetchArtifacts])
            | some _ =>
              (some inp.remoteExit,
               fetched ++ [Event.hashHead, Event.fetchArtifacts, Event.deploy])

/-- `EmittedFrom files wanted c s`: starting at `c` there is a chain of
parent edges, every commit on it (the end point included) having content
identity `wanted` over `files`, ending at a commit with hexsha `s`.  This is
the specification of what the depth-first walk emits: it never crosses a
commit whose identity differs (or is undefined), and it reaches every
matching commit connected to the start through matching commits only. -/
inductive EmittedFrom (files wanted : List String) : Commit → String → Prop where
  | self : ∀ c : Commit, hash_files c.tree files = some wanted →
      EmittedFrom files wanted c c.hexsha
  | ancestor : ∀ (c p : Commit) (s : String),
      hash_files c.tree files = some wanted → p ∈ c.parents →
      EmittedFrom files wanted p s → EmittedFrom files wanted c s

theorem mem_find_commits (files wanted : List String) (c : Commit) (s : String) :
    s ∈ find_commits c files wanted ↔ EmittedFrom files wanted c s := by
  suffices H : ∀ (n : Nat) (c : Commit), sizeOf c ≤ n → ∀ s : String,
      s ∈ find_commits c files wanted ↔ EmittedFrom files wanted c s by
    exact H (sizeOf c) c le_rfl s
  intro n
  induction n with
  | zero =>
    intro c hc
    obtain ⟨sha, tree, parents⟩ := c
    simp [Commit.mk.sizeOf_spec] at hc
  | succ n ih =>
    intro c hc s
    obtain ⟨sha, tree, parents⟩ := c
    rw [find_commits]
    cases hh : hash_files tree files with
    | none =>
      simp only [List.not_mem_nil, false_iff]
      intro hem
      cases hem with
      | self _ h => rw [Commit.tree] at h; rw [hh] at h; exact Option.noConfusion h
      | ancestor _ _ _ h _ _ => rw [Commit.tree] at h; rw [hh] at h; exact Option.noConfusion h
    | some hsh =>
      have hsize : ∀ p : Commit, p ∈ parents → sizeOf p ≤ n := by
        intro p hp
        have h1 := List.sizeOf_lt_of_mem hp
        simp only [Commit.mk.sizeOf_spec] at hc
        omega
      by_cases he : hsh = wanted
      · subst he
        simp only [reduceIte]
        constructor
        · intro hs
          rcases List.mem_cons.mp hs with rfl | hs'
          · exact EmittedFrom.self (Commit.mk s tree parents) hh
          · rcases List.mem_flatten.mp hs' with ⟨l, hl, hmem⟩
            rcases List.mem_map.mp hl with ⟨p, hp, rfl⟩
            have hrec := (ih p.1 (hsize p.1 p.2) s).mp hmem
            exact EmittedFrom.ancestor (Commit.mk sha tree parents) p.1 s hh p.2 hrec
        · intro hem
          cases hem with
          | self _ h => exact List.mem_cons_self _ _
          | ancestor _ p s h hp hrec =>
            apply List.mem_cons_of_mem
            apply List.mem_flatten.mpr
            refine ⟨find_commits p files hsh, ?_, (ih p (hsize p hp) s).mpr hrec⟩
            exact List.mem_map.mpr ⟨⟨p, hp⟩, List.mem_attach _ _, rfl⟩
      · simp only [if_neg he, List.not_mem_nil, false_iff]
        intro hem
        have hsome : hash_files tree files = some wanted := by
          cases hem with
          | self _ h => rw [Commit.tree] at h; exact h
          | ancestor _ _ _ h _ _ => rw [Commit.tree] at h; exact h
        rw [hh] at hsome
        injection hsome with h2
        exact he h2

/-- Unfolding equation for `find_commits` with the membership bookkeeping of
`attach` removed, usable for rewriting on concrete inputs. -/
theorem find_commits_eq (sha : String) (tree : Tree) (parents : List Commit)
    (files wanted : List String) :
    find_commits (Commit.mk sha tree parents) files wanted =
      match hash_files tree files with
      | none => []
      | some h =>
        if h = wanted then
          sha :: (parents.map (fun p => find_commits p files wanted)).flatten
        else [] := by
  rw [find_commits]
  cases hash_files tree files with
  | none => rfl
  | some h =>
    by_cases he : h = wanted
    · simp only [if_pos he, List.attach_map_val (f := fun p => find_commits p files wanted)]
    · simp only [if_neg he]

/-- Scenario fixture: the tree shared by commits A and B. -/
def treeAB : Tree := ⟨[("f", "h1")]⟩

/-- Scenario fixture: the differing tree of commit C. -/
def treeC : Tree := ⟨[("f", "h2")]⟩

/-- Scenario fixture: commit C (B's parent), differing identity. -/
def commitC : Commit := ⟨"C", treeC, []⟩

/-- Scenario fixture: commit B (A's sole parent), matching identity. -/
def commitB : Commit := ⟨"B", treeAB, [commitC]⟩

/-- Scenario fixture: commit A (tip), matching identity. -/
def commitA : Commit := ⟨"A", treeAB, [commitB]⟩

/-- Scenario fixture: run R1 for commit A, completed with conclusion failure. -/
def runR1 : WorkflowRun := ⟨1, "completed", "failure", "A", "url1"⟩

/-- Scenario fixture: run R2 for commit B, completed with conclusion success. -/
def runR2 : WorkflowRun := ⟨2, "completed", "success", "B", "url2"⟩

/-- Scenario fixture: the cached store holding R1 then R2. -/
def scenarioStore : Store := [(1, runR1), (2, runR2)]

/-- Fixture: a stored run with id 1, already completed (successfully). -/
def oldRun : WorkflowRun := ⟨1, "completed", "success", "A", "url1"⟩

/-- Fixture: a freshly fetched run carrying the same id 1 but different
content. -/
def newRun : WorkflowRun := ⟨1, "completed", "failure", "A", "url1b"⟩

/-- Fixture: a head commit whose tree lacks every tracked path. -/
def missingHead : Commit := ⟨"H", ⟨[]⟩, []⟩

/-- Fixture: a `main` environment with a credential present, an empty cache
file, one non-200 page response, and a head commit missing the tracked
paths. -/
def inputC1 : MainInput := ⟨some ("t"), FileContent.empty, [PageResult.httpError], missingHead, [], 0⟩

/-- Fixture: an expired artifact whose name matches the one the script
downloads. -/
def artifactExp : Artifact := ⟨"lila-assets", true, "u2"⟩

theorem lookup_map_self (s : Store) (k : Nat) (v : WorkflowRun)
    (h : (s.find? (fun e => e.1 == k)).isSome = true) :
    Store.lookup (s.map (fun e => if e.1 == k then (k, v) else e)) k = some v := by
  induction s with
  | nil => simp at h
  | cons e rest ih =>
    simp only [Store.lookup, List.map_cons] at ih ⊢
    by_cases he : (e.1 == k) = true
    · have hkv : (fun x : Nat × WorkflowRun => x.1 == k) (k, v) = true := by simp
      rw [if_pos he, List.find?_cons_of_pos (p := fun x => x.1 == k) (a := (k, v)) _ hkv]
      rfl
    · rw [List.find?_cons_of_neg (p := fun x => x.1 == k) (a := e) _ he] at h
      rw [if_neg he, List.find?_cons_of_neg (p := fun x => x.1 == k) (a := e) _ he]
      exact ih h

theorem lookup_map_ne (s : Store) (k k' : Nat) (v : WorkflowRun) (hne : k' ≠ k) :
    Store.lookup (s.map (fun e => if e.1 == k then (k, v) else e)) k' = Store.lookup s k' := by
  induction s with
  | nil => rfl
  | cons e rest ih =>
    simp only [Store.lookup, List.map_cons] at ih ⊢
    by_cases he : (e.1 == k) = true
    · have h1 : e.1 = k := by simpa using he
      have hL : ¬ ((fun x : Nat × WorkflowRun => x.1 == k') (k, v) = true) := by simp; omega
      have hR : ¬ ((fun x : Nat × WorkflowRun => x.1 == k') e = true) := by simp [h1]; omega
      rw [if_pos he,
        List.find?_cons_of_neg (p := fun x => x.1 == k') (a := (k, v)) _ hL,
        List.find?_cons_of_neg (p := fun x => x.1 == k') (a := e) _ hR]
      exact ih
    · rw [if_neg he]
      by_cases he' : (e.1 == k') = true
      · rw [List.find?_cons_of_pos (p := fun x => x.1 == k') (a := e) _ he',
          List.find?_cons_of_pos (p := fun x => x.1 == k') (a := e) _ he']
      · rw [List.find?_cons_of_neg (p := fun x => x.1 == k') (a := e) _ he',
          List.find?_cons_of_neg (p := fun x => x.1 == k') (a := e) _ he']
        exact ih

theorem lookup_insert_self (s : Store) (k : Nat) (v : WorkflowRun) :
    Store.lookup (Store.insert s k v) k = some v := by
  unfold Store.insert
  split
  next h => exact lookup_map_self s k v h
  next h =>
    have hn : s.find? (fun e => e.1 == k) = none := by
      cases hf : s.find? (fun e => e.1 == k) with
      | none => rfl
      | some x => rw [hf] at h; simp at h
    simp [Store.lookup, List.find?_append, hn]

theorem lookup_insert_ne (s : Store) (k k' : Nat) (v : WorkflowRun) (hne : k' ≠ k) :
    Store.lookup (Store.insert s k v) k' = Store.lookup s k' := by
  unfold Store.insert
  split
  next h => exact lookup_map_ne s k k' v hne
  next h =>
    simp only [Store.lookup, List.find?_append]
    have : List.find? (fun e => e.1 == k') [(k, v)] = none := by simp; omega
    rw [this]
    cases s.find? (fun e => e.1 == k') <;> rfl

/-- Inserting cannot remove a present key. -/
theorem lookup_insert_isSome (s : Store) (k k' : Nat) (v : WorkflowRun)
    (h : (Store.lookup s k').isSome = true) :
    (Store.lookup (Store.insert s k v) k').isSome = true := by
  by_cases hk : k' = k
  · subst hk; rw [lookup_insert_self]; rfl
  · rw [lookup_insert_ne s k k' v hk]; exact h

/-- The `synced` test holds exactly when the run's id is stored with status
`completed`. -/
theorem hitOf_iff (data : Store) (r : WorkflowRun) :
    hitOf data r = true ↔
      ∃ v, Store.lookup data r.id = some v ∧ v.status = "completed" := by
  unfold hitOf
  cases h : Store.lookup data r.id with
  | none => simp
  | some v => simp [beq_iff_eq]

/-- Merging a page never removes a present key. -/
theorem lookup_mergeRuns_isSome (runs : List WorkflowRun) (data : Store) (k : Nat)
    (h : (Store.lookup data k).isSome = true) :
    (Store.lookup (mergeRuns runs data).1 k).isSome = true := by
  induction runs generalizing data with
  | nil => exact h
  | cons r rs ih => exact ih _ (lookup_insert_isSome data r.id k r h)

/-- Merging a page leaves every key that is not among the page's run ids
unchanged. -/
theorem lookup_mergeRuns_not_mem (runs : List WorkflowRun) (data : Store) (k : Nat)
    (h : ∀ r ∈ runs, r.id ≠ k) :
    Store.lookup (mergeRuns runs data).1 k = Store.lookup data k := by
  induction runs generalizing data with
  | nil => rfl
  | cons r rs ih =>
    have h1 : r.id ≠ k := h r (List.mem_cons_self r rs)
    calc Store.lookup (mergeRuns (r :: rs) data).1 k
        = Store.lookup (mergeRuns rs (Store.insert data r.id r)).1 k := rfl
      _ = Store.lookup (Store.insert data r.id r) k :=
          ih _ (fun x hx => h x (List.mem_cons_of_mem r hx))
      _ = Store.lookup data k := lookup_insert_ne _ _ _ _ (Ne.symm h1)

/-- The pagination loop never removes a present key. -/
theorem lookup_syncPages_isSome (pages : List PageResult) (data : Store) (k : Nat)
    (h : (Store.lookup data k).isSome = true) :
    (Store.lookup (syncPages pages data).1 k).isSome = true := by
  induction pages generalizing data with
  | nil => exact h
  | cons p rest ih =>
    cases p with
    | httpError => exact h
    | exn => exact h
    | ok runs hasNext =>
      cases hm : (mergeRuns runs data).2 with
      | true =>
        simp only [syncPages, hm, if_true]
        exact lookup_mergeRuns_isSome runs data k h
      | false =>
        cases hasNext with
        | false =>
          simp only [syncPages, hm, Bool.false_eq_true, if_false]
          exact lookup_mergeRuns_isSome runs data k h
        | true =>
          simp only [syncPages, hm, Bool.false_eq_true, if_false, if_true]
          exact ih _ (lookup_mergeRuns_isSome runs data k h)

/-- The runs carried by a page result (empty for a failed fetch). -/
def pageRuns : PageResult → List WorkflowRun
  | .ok runs _ => runs
  | _ => []

/-- The pagination loop leaves every key that occurs on none of the fetched
pages unchanged. -/
theorem lookup_syncPages_not_mem (pages : List PageResult) (data : Store) (k : Nat)
    (h : ∀ p ∈ pages, ∀ r ∈ pageRuns p, r.id ≠ k) :
    Store.lookup (syncPages pages data).1 k = Store.lookup data k := by
  induction pages generalizing data with
  | nil => rfl
  | cons p rest ih =>
    cases p with
    | httpError => rfl
    | exn => rfl
    | ok runs hasNext =>
      have hpage : ∀ r ∈ runs, r.id ≠ k :=
        fun r hr => h _ (List.mem_cons_self _ _) r hr
      have hrest : ∀ p ∈ rest, ∀ r ∈ pageRuns p, r.id ≠ k :=
        fun p hp => h p (List.mem_cons_of_mem _ hp)
      cases hm : (mergeRuns runs data).2 with
      | true =>
        simp only [syncPages, hm, if_true]
        exact lookup_mergeRuns_not_mem runs data k hpage
      | false =>
        cases hasNext with
        | false =>
          simp only [syncPages, hm, Bool.false_eq_true, if_false]
          exact lookup_mergeRuns_not_mem runs data k hpage
        | true =>
          simp only [syncPages, hm, Bool.false_eq_true, if_false, if_true]
          rw [ih _ hrest]
          exact lookup_mergeRuns_not_mem runs data k hpage

/-- The `synced` flag of a page is set exactly when some run of the page has
its id already stored with status `completed` at the moment that run is
processed (earlier runs of the same page already merged). -/
theorem mergeRuns_snd_iff (runs : List WorkflowRun) (data : Store) :
    (mergeRuns runs data).2 = true ↔
      ∃ (pre : List WorkflowRun) (r : WorkflowRun) (post : List WorkflowRun)
        (v : WorkflowRun),
        runs = pre ++ r :: post ∧
        Store.lookup (mergeRuns pre data).1 r.id = some v ∧
        v.status = "completed" := by
  induction runs generalizing data with
  | nil =>
    constructor
    · intro h; simp [mergeRuns] at h
    · rintro ⟨pre, r, post, v, heq, -, -⟩
      exact absurd heq (by simp)
  | cons r rs ih =>
    constructor
    · intro h
      have h' : hitOf data r = true ∨ (mergeRuns rs (Store.insert data r.id r)).2 = true := by
        simpa [mergeRuns, Bool.or_eq_true] using h
      rcases h' with hhit | hrest
      · rcases (hitOf_iff data r).mp hhit with ⟨v, hv, hst⟩
        exact ⟨[], r, rs, v, rfl, hv, hst⟩
      · rcases (ih (Store.insert data r.id r)).mp hrest with ⟨pre, r', post, v, heq, hlook, hst⟩
        exact ⟨r :: pre, r', post, v, by simp [heq], hlook, hst⟩
    · rintro ⟨pre, r', post, v, heq, hlook, hst⟩
      cases pre with
      | nil =>
        simp only [List.nil_append] at heq
        injection heq with h1 h2
        subst h1
        subst h2
        have hhit : hitOf data r = true :=
          (hitOf_iff data r).mpr ⟨v, hlook, hst⟩
        simp [mergeRuns, hhit]
      | cons p0 pres =>
        simp only [List.cons_append] at heq
        injection heq with h1 h2
        subst h1
        have hrest : (mergeRuns rs (Store.insert data r.id r)).2 = true :=
          (ih (Store.insert data r.id r)).mpr ⟨pres, r', post, v, h2, hlook, hst⟩
        simp [mergeRuns, hrest]

/-- A run's disposition is `succeeded` exactly when it is completed with
conclusion success. -/
theorem disposition_eq_succeeded (r : WorkflowRun) :
    disposition r = Disposition.succeeded ↔
      (r.status == "completed" && r.conclusion == "success") = true := by
  unfold disposition
  by_cases h1 : r.status = "completed"
  · by_cases h2 : r.conclusion = "success" <;> simp [h1, h2, beq_iff_eq]
  · simp [h1, beq_iff_eq]

/-- Closed form of the selector: the selected run is the first qualifying
run (iteration order) that is completed with conclusion success, and the
report lines are exactly the qualifying runs with their dispositions. -/
theorem find_workflow_run_eq (runs : Store) (wanted : List String) :
    find_workflow_run runs wanted =
      (((runs.map Prod.snd).filter (fun r => decide (r.head_commit_id ∈ wanted))).find?
          (fun r => r.status == "completed" && r.conclusion == "success"),
       ((runs.map Prod.snd).filter (fun r => decide (r.head_commit_id ∈ wanted))).map
          (fun r => (r.html_url, disposition r))) := by
  induction runs with
  | nil => rfl
  | cons e rest ih =>
    simp only [find_workflow_run, ih, List.map_cons]
    by_cases hmem : e.2.head_commit_id ∈ wanted
    · rw [if_pos hmem,
        List.filter_cons_of_pos (p := fun r : WorkflowRun => decide (r.head_commit_id ∈ wanted))
          (by simpa using hmem), List.map_cons]
      by_cases hd : disposition e.2 = Disposition.succeeded
      · rw [if_pos hd,
          List.find?_cons_of_pos
            (p := fun r : WorkflowRun => r.status == "completed" && r.conclusion == "success") _
            ((disposition_eq_succeeded e.2).mp hd)]
      · rw [if_neg hd,
          List.find?_cons_of_neg
            (p := fun r : WorkflowRun => r.status == "completed" && r.conclusion == "success") _
            (fun h => hd ((disposition_eq_succeeded e.2).mpr h))]
    · rw [if_neg hmem,
        List.filter_cons_of_neg (p := fun r : WorkflowRun => decide (r.head_commit_id ∈ wanted))
          (by simpa using hmem)]

/-- Whatever the pagination loop does — complete, stop early, or raise — the
whole in-memory store is rewritten to the file. -/
theorem workflow_runs_persists (file : FileContent) (pages : List PageResult)
    (data : Store) (hload : loadStore file = Except.ok data) :
    (workflow_runs file pages).2.1 = FileContent.store (syncPages pages data).1 := by
  simp only [workflow_runs, hload]
  cases hs : (syncPages pages data).2.1 <;> rfl

/-- When no exception escapes the loop, the call returns the synced store. -/
theorem workflow_runs_result_ok (file : FileContent) (pages : List PageResult)
    (data : Store) (hload : loadStore file = Except.ok data)
    (hnone : (syncPages pages data).2.1 = none) :
    (workflow_runs file pages).1 = Except.ok (syncPages pages data).1 := by
  simp only [workflow_runs, hload, hnone]

/-- When an exception escapes the loop, it propagates (after the rewrite). -/
theorem workflow_runs_result_err (file : FileContent) (pages : List PageResult)
    (data : Store) (e : SyncError) (hload : loadStore file = Except.ok data)
    (hsome : (syncPages pages data).2.1 = some e) :
    (workflow_runs file pages).1 = Except.error e := by
  simp only [workflow_runs, hload, hsome]

/-- Closed form of `artifact_url`: governed by the first exact name match. -/
theorem artifact_url_eq (artifacts : List Artifact) (name : String) :
    artifact_url artifacts name =
      match artifacts.find? (fun a => a.name == name) with
      | some a => (some a.archive_download_url, a.expired)
      | none => (none, false) := by
  induction artifacts with
  | nil => rfl
  | cons a rest ih =>
    by_cases h : (a.name == name) = true
    · rw [show artifact_url (a :: rest) name = (some a.archive_download_url, a.expired) by
        simp [artifact_url, h],
        List.find?_cons_of_pos (p := fun a : Artifact => a.name == name) _ h]
    · rw [show artifact_url (a :: rest) name = artifact_url rest name by
        simp [artifact_url, h],
        List.find?_cons_of_neg (p := fun a : Artifact => a.name == name) _ h]
      exact ih

/-- C1 is false as stated: with the head commit missing a tracked path, the
process does exit with code 1, but a workflow-run page fetch (network call)
has already happened by then — `main` syncs the cache before computing the
head commit's content identity. -/
theorem C1_counterexample :
    (mainRun inputC1).1 = some 1 ∧ Event.fetchRuns ∈ (mainRun inputC1).2 := by
  have h : mainRun inputC1 = (some 1, [Event.fetchRuns, Event.hashHead]) := rfl
  rw [h]
  exact ⟨rfl, List.mem_cons_self _ _⟩

/-- C1 (amended): if any tracked path is absent from the head commit's tree,
the process fails with the unresolvable-inputs error (exit code 1), but only
after the workflow-run cache sync has completed — every workflow-run page
fetch precedes the identity computation, not the other way around. -/
theorem C1_identity_failure_exits_after_sync
    (inp : MainInput) (t : String) (data : Store)
    (htok : inp.token = some t)
    (hload : loadStore inp.file = Except.ok data)
    (hnoerr : (syncPages inp.pages data).2.1 = none)
    (hmiss : hash_files inp.head.tree ASSET_FILES = none) :
    mainRun inp = (some 1,
      List.replicate (syncPages inp.pages data).2.2 Event.fetchRuns ++ [Event.hashHead]) := by
  simp only [mainRun, htok, hload, hnoerr, hmiss]

/-- Witness for the amended C1 at a concrete environment. -/
theorem C1_identity_failure_exits_after_sync_witness :
    inputC1.token = some ("t")
    ∧ loadStore inputC1.file = Except.ok []
    ∧ (syncPages inputC1.pages []).2.1 = none
    ∧ hash_files inputC1.head.tree ASSET_FILES = none
    ∧ mainRun inputC1 = (some 1,
        List.replicate (syncPages inputC1.pages []).2.2 Event.fetchRuns ++ [Event.hashHead]) :=
  ⟨rfl, rfl, rfl, rfl,
    C1_identity_failure_exits_after_sync inputC1 "t" [] rfl rfl rfl rfl⟩

/-- C2: when some run of a fetched page has its id already stored with
status completed at the moment it is processed, the pagination loop merges
the rest of that page but fetches no further page (fetch count 1), and the
call returns and persists the store with exactly that page's updates
applied. -/
theorem C2_sync_stops_after_completed_page
    (file : FileContent) (data : Store) (runs : List WorkflowRun)
    (next : Bool) (rest : List PageResult)
    (hload : loadStore file = Except.ok data)
    (hhit : ∃ (pre : List WorkflowRun) (r : WorkflowRun) (post : List WorkflowRun)
        (v : WorkflowRun), runs = pre ++ r :: post ∧
        Store.lookup (mergeRuns pre data).1 r.id = some v ∧ v.status = "completed") :
    syncPages (PageResult.ok runs next :: rest) data = ((mergeRuns runs data).1, none, 1)
    ∧ workflow_runs file (PageResult.ok runs next :: rest) =
        (Except.ok (mergeRuns runs data).1, FileContent.store (mergeRuns runs data).1, 1) := by
  have hflag : (mergeRuns runs data).2 = true := (mergeRuns_snd_iff runs data).mpr hhit
  have hsync : syncPages (PageResult.ok runs next :: rest) data =
      ((mergeRuns runs data).1, none, 1) := by
    simp only [syncPages, hflag, if_true]
  refine ⟨hsync, ?_⟩
  simp only [workflow_runs, hload, hsync]

/-- Witness for C2 at a concrete store and page. -/
theorem C2_sync_stops_after_completed_page_witness :
    (∃ (pre : List WorkflowRun) (r : WorkflowRun) (post : List WorkflowRun)
        (v : WorkflowRun), [newRun] = pre ++ r :: post ∧
        Store.lookup (mergeRuns pre [(1, oldRun)]).1 r.id = some v ∧ v.status = "completed")
    ∧ workflow_runs (FileContent.store [(1, oldRun)]) [PageResult.ok [newRun] true] =
        (Except.ok [(1, newRun)], FileContent.store [(1, newRun)], 1) :=
  ⟨⟨[], newRun, [], oldRun, rfl, rfl, rfl⟩,
    (C2_sync_stops_after_completed_page (FileContent.store [(1, oldRun)]) [(1, oldRun)]
      [newRun] true [] rfl ⟨[], newRun, [], oldRun, rfl, rfl, rfl⟩).2⟩

/-- C3: the selector returns exactly the first run in store iteration order
that is qualifying (head commit in the matching set), completed and
successful; its report lines are exactly the qualifying runs with their
dispositions; a returned run satisfies all three conditions; and in the
R1/R2 scenario both runs are reported and R2 is selected. -/
theorem C3_selector_first_successful_qualifying :
    (∀ (runs : Store) (wanted : List String),
      (find_workflow_run runs wanted).1 =
        ((runs.map Prod.snd).filter (fun r => decide (r.head_commit_id ∈ wanted))).find?
          (fun r => r.status == "completed" && r.conclusion == "success")
      ∧ (find_workflow_run runs wanted).2 =
        ((runs.map Prod.snd).filter (fun r => decide (r.head_commit_id ∈ wanted))).map
          (fun r => (r.html_url, disposition r))
      ∧ (∀ r, (find_workflow_run runs wanted).1 = some r →
          r.head_commit_id ∈ wanted ∧ r.status = "completed" ∧ r.conclusion = "success"))
    ∧ find_workflow_run scenarioStore ["A", "B"] =
        (some runR2, [("url1", Disposition.failed), ("url2", Disposition.succeeded)]) := by
  constructor
  · intro runs wanted
    have h := find_workflow_run_eq runs wanted
    refine ⟨congrArg Prod.fst h, congrArg Prod.snd h, ?_⟩
    intro r hr
    rw [h] at hr
    have hp := List.find?_some hr
    have hmem := List.mem_of_find?_eq_some hr
    have hq := (List.mem_filter.mp hmem).2
    have hand := (Bool.and_eq_true _ _).mp hp
    exact ⟨of_decide_eq_true hq, eq_of_beq hand.1, eq_of_beq hand.2⟩
  · decide

/-- Witness for C3's conditional part at the scenario store. -/
theorem C3_selector_witness :
    (find_workflow_run scenarioStore ["A", "B"]).1 = some runR2
    ∧ (runR2.head_commit_id ∈ ["A", "B"]
       ∧ runR2.status = "completed" ∧ runR2.conclusion = "success") :=
  ⟨by decide,
    (C3_selector_first_successful_qualifying.1 scenarioStore ["A", "B"]).2.2 runR2 (by decide)⟩

/-- C4: the depth-first walk emits a hexsha exactly when it is reachable
from the start through a chain of commits all having the target identity
(so a commit whose identity differs — a missing tracked path included — is
not emitted and none of its ancestors through it are); a mismatching commit
contributes nothing at all; and in the A/B/C scenario the emitted list is
["A", "B"], giving the deduplicated set {A, B}. -/
theorem C4_walk_emits_exactly_matching_chains :
    (∀ (files wanted : List String) (c : Commit) (s : String),
        s ∈ find_commits c files wanted ↔ EmittedFrom files wanted c s)
    ∧ (∀ (files wanted : List String) (c : Commit),
        hash_files c.tree files ≠ some wanted → find_commits c files wanted = [])
    ∧ find_commits commitA ["f"] ["h1"] = ["A", "B"]
    ∧ (find_commits commitA ["f"] ["h1"]).dedup = ["A", "B"] := by
  have hAB : find_commits commitA ["f"] ["h1"] = ["A", "B"] := by
    simp only [commitA, commitB, commitC, treeAB, treeC, find_commits_eq,
      List.map_cons, List.map_nil, List.flatten_cons, List.flatten_nil]
    rfl
  refine ⟨mem_find_commits, ?_, hAB, by rw [hAB]; rfl⟩
  intro files wanted c hne
  obtain ⟨sha, tree, parents⟩ := c
  rw [Commit.tree] at hne
  rw [find_commits_eq]
  cases hh : hash_files tree files with
  | none => rfl
  | some h =>
    rw [hh] at hne
    have hne' : ¬ (h = wanted) := fun he => hne (by rw [he])
    simp only [if_neg hne']

/-- Witness for C4's pruning part at the mismatching commit C. -/
theorem C4_walk_witness :
    hash_files commitC.tree ["f"] ≠ some ["h1"]
    ∧ find_commits commitC ["f"] ["h1"] = [] :=
  ⟨by decide,
    C4_walk_emits_exactly_matching_chains.2.1 ["f"] ["h1"] commitC (by decide)⟩

/-- C5 is false as stated: the page loop stores `data[run["id"]] = run`
unconditionally, so an entry whose stored status is completed is overwritten
when a run with the same id is fetched again — here the stored completed run
with id 1 is replaced by a different fetched value. -/
theorem C5_counterexample :
    oldRun.status = "completed"
    ∧ Store.lookup [(1, oldRun)] 1 = some oldRun
    ∧ Store.lookup (syncPages [PageResult.ok [newRun] false] [(1, oldRun)]).1 1 = some newRun
    ∧ newRun ≠ oldRun := by
  refine ⟨rfl, rfl, rfl, ?_⟩
  decide

/-- C5 (amended): sync overwrites the entry of every fetched run
unconditionally, whatever the stored status; an entry is immutable during a
sync only in the sense that a run id occurring on none of the fetched pages
keeps exactly its stored value. -/
theorem C5_only_fetched_ids_overwritten
    (pages : List PageResult) (data : Store) (k : Nat)
    (h : ∀ p ∈ pages, ∀ r ∈ pageRuns p, r.id ≠ k) :
    Store.lookup (syncPages pages data).1 k = Store.lookup data k :=
  lookup_syncPages_not_mem pages data k h

/-- Witness for the amended C5: the stored run with id 1 is untouched by a
page carrying only id 2. -/
theorem C5_only_fetched_ids_overwritten_witness :
    (∀ p ∈ [PageResult.ok [runR2] true], ∀ r ∈ pageRuns p, r.id ≠ 1)
    ∧ Store.lookup (syncPages [PageResult.ok [runR2] true] [(1, oldRun)]).1 1 =
        Store.lookup [(1, oldRun)] 1 :=
  ⟨by decide,
    C5_only_fetched_ids_overwritten [PageResult.ok [runR2] true] [(1, oldRun)] 1 (by decide)⟩

/-- C6 is false as stated: only the newly-created/empty file (`EOFError`) is
treated as an empty store; file content that is not a valid pickle makes the
load raise, and that read error propagates out of the sync instead of being
treated as an empty store. -/
theorem C6_counterexample :
    loadStore FileContent.corrupt = Except.error SyncError.loadFailed
    ∧ (workflow_runs FileContent.corrupt []).1 = Except.error SyncError.loadFailed :=
  ⟨rfl, rfl⟩

/-- C6 (amended): a newly created or empty store file makes sync start from
the empty store (it behaves exactly as a validly persisted empty store, and
the load yields the empty dict); but store content that fails to
deserialize propagates a read error, leaving the file as it was. -/
theorem C6_empty_store_not_fatal :
    (∀ pages, workflow_runs FileContent.empty pages = workflow_runs (FileContent.store []) pages)
    ∧ loadStore FileContent.empty = Except.ok []
    ∧ (∀ s, loadStore (FileContent.store s) = Except.ok s)
    ∧ (∀ pages, (workflow_runs FileContent.corrupt pages).1 = Except.error SyncError.loadFailed
        ∧ (workflow_runs FileContent.corrupt pages).2.1 = FileContent.corrupt) :=
  ⟨fun _ => rfl, rfl, fun _ => rfl, fun _ => ⟨rfl, rfl⟩⟩

/-- C7: once the store is loaded, every exit path of the sync — normal
completion, early stop, non-success page response, or a propagating
exception — leaves the file rewritten with the full in-memory store; a
non-200 response stops pagination without being an error, and the
partially-synced store is still returned and persisted. -/
theorem C7_store_persisted_on_every_exit
    (file : FileContent) (pages : List PageResult) (data : Store)
    (hload : loadStore file = Except.ok data) :
    (workflow_runs file pages).2.1 = FileContent.store (syncPages pages data).1
    ∧ (∀ e, (syncPages pages data).2.1 = some e →
        (workflow_runs file pages).1 = Except.error e)
    ∧ ((syncPages pages data).2.1 = none →
        (workflow_runs file pages).1 = Except.ok (syncPages pages data).1)
    ∧ (∀ (rest : List PageResult) (d : Store),
        syncPages (PageResult.httpError :: rest) d = (d, none, 1))
    ∧ (∀ rest : List PageResult,
        workflow_runs file (PageResult.httpError :: rest) =
          (Except.ok data, FileContent.store data, 1)) := by
  refine ⟨workflow_runs_persists file pages data hload,
    fun e he => workflow_runs_result_err file pages data e hload he,
    fun hn => workflow_runs_result_ok file pages data hload hn,
    fun rest d => rfl, fun rest => ?_⟩
  simp only [workflow_runs, hload, syncPages]

/-- Witness for C7 at a concrete file and page list. -/
theorem C7_store_persisted_on_every_exit_witness :
    loadStore (FileContent.store [(1, oldRun)]) = Except.ok [(1, oldRun)]
    ∧ (workflow_runs (FileContent.store [(1, oldRun)]) [PageResult.exn]).2.1 =
        FileContent.store (syncPages [PageResult.exn] [(1, oldRun)]).1 :=
  ⟨rfl,
    (C7_store_persisted_on_every_exit (FileContent.store [(1, oldRun)])
      [PageResult.exn] [(1, oldRun)] rfl).1⟩

/-- C8: sync never removes an entry — every run id present in the loaded
store is still present in the store the pagination loop produces; that
store is what gets persisted, and also what gets returned when the call
succeeds. -/
theorem C8_sync_never_removes_entries
    (file : FileContent) (pages : List PageResult) (data : Store) (k : Nat)
    (hload : loadStore file = Except.ok data)
    (h : (Store.lookup data k).isSome = true) :
    (Store.lookup (syncPages pages data).1 k).isSome = true
    ∧ (workflow_runs file pages).2.1 = FileContent.store (syncPages pages data).1
    ∧ (∀ d, (workflow_runs file pages).1 = Except.ok d →
        (Store.lookup d k).isSome = true) := by
  refine ⟨lookup_syncPages_isSome pages data k h,
    workflow_runs_persists file pages data hload, ?_⟩
  intro d hd
  cases hs : (syncPages pages data).2.1 with
  | some e =>
    rw [workflow_runs_result_err file pages data e hload hs] at hd
    exact absurd hd (by simp)
  | none =>
    rw [workflow_runs_result_ok file pages data hload hs] at hd
    injection hd with hd'
    rw [← hd']
    exact lookup_syncPages_isSome pages data k h

/-- Witness for C8 at a concrete store and page. -/
theorem C8_sync_never_removes_entries_witness :
    (Store.lookup [(1, oldRun)] 1).isSome = true
    ∧ (Store.lookup (syncPages [PageResult.ok [runR2] false] [(1, oldRun)]).1 1).isSome = true :=
  ⟨rfl,
    (C8_sync_never_removes_entries (FileContent.store [(1, oldRun)])
      [PageResult.ok [runR2] false] [(1, oldRun)] 1 rfl rfl).1⟩

/-- C9: the artifact lookup yields a download URL exactly when some artifact
name equals the wanted name (an exact, case-sensitive string match — two
names differing only in case do not match, as the fixture shows), it
returns the first such artifact's URL together with its expired flag (an
expired match is only warned about, its URL still returned), and yields
none otherwise. -/
theorem C9_artifact_exact_name_match (artifacts : List Artifact) (name : String) :
    ((artifact_url artifacts name).1.isSome ↔ ∃ a ∈ artifacts, a.name = name)
    ∧ (∀ a, artifacts.find? (fun x => x.name == name) = some a →
        artifact_url artifacts name = (some a.archive_download_url, a.expired))
    ∧ (artifacts.find? (fun x => x.name == name) = none →
        artifact_url artifacts name = (none, false))
    ∧ artifact_url [⟨"Lila-Assets", true, "u"⟩] "lila-assets" = (none, false) := by
  refine ⟨?_, ?_, ?_, rfl⟩
  · rw [artifact_url_eq]
    cases hf : artifacts.find? (fun x => x.name == name) with
    | some a =>
      simp only [Option.isSome_some, true_iff]
      exact ⟨a, List.mem_of_find?_eq_some hf, eq_of_beq (List.find?_some (a := a) hf)⟩
    | none =>
      simp only [Option.isSome_none, Bool.false_eq_true, false_iff]
      rintro ⟨a, ha, hname⟩
      have := List.find?_eq_none.mp hf a ha
      exact this (by simp [hname])
  · intro a hf
    rw [artifact_url_eq, hf]
  · intro hf
    rw [artifact_url_eq, hf]

/-- Witness for C9: the expired matching artifact is still returned, expired
flag reported. -/
theorem C9_artifact_exact_name_match_witness :
    [artifactExp].find? (fun x => x.name == "lila-assets") = some artifactExp
    ∧ artifact_url [artifactExp] "lila-assets" = (some ("u2"), true) :=
  ⟨by decide,
    (C9_artifact_exact_name_match [artifactExp] "lila-assets").2.1 artifactExp (by decide)⟩

/-- C10: a commit whose content identity over the tracked paths is defined
is emitted first by the walk started at itself with its own identity as
target; hence the deduplicated matching set is non-empty and contains it. -/
theorem C10_head_commit_emitted_first (c : Commit) (files h : List String)
    (hh : hash_files c.tree files = some h) :
    (find_commits c files h).head? = some c.hexsha
    ∧ c.hexsha ∈ (find_commits c files h).dedup
    ∧ (find_commits c files h).dedup ≠ [] := by
  obtain ⟨sha, tree, parents⟩ := c
  rw [Commit.tree] at hh
  have hc : find_commits (Commit.mk sha tree parents) files h =
      sha :: (parents.map (fun p => find_commits p files h)).flatten := by
    simp only [find_commits_eq, hh]
    simp
  rw [hc]
  refine ⟨rfl, ?_, ?_⟩
  · exact List.mem_dedup.mpr (List.mem_cons_self _ _)
  · intro hemp
    have := List.mem_dedup.mpr (List.mem_cons_self sha
      ((parents.map (fun p => find_commits p files h)).flatten))
    rw [hemp] at this
    exact List.not_mem_nil _ this

/-- Witness for C10 at the scenario tip commit. -/
theorem C10_head_commit_emitted_first_witness :
    hash_files commitA.tree ["f"] = some ["h1"]
    ∧ ((find_commits commitA ["f"] ["h1"]).head? = some commitA.hexsha
       ∧ commitA.hexsha ∈ (find_commits commitA ["f"] ["h1"]).dedup
       ∧ (find_commits commitA ["f"] ["h1"]).dedup ≠ []) :=
  ⟨rfl, C10_head_commit_emitted_first commitA ["f"] ["h1"] rfl⟩

end CiDeploy
